import Mathlib

set_option exponentiation.threshold 30000

/-!
Shallow embedding of `src/main.py` from the `linearithmic-time` repository,
together with proofs of the specification's claims about `merge`,
`merge_sort` and the growth-table formulas.

The Python lists become Lean `List`s.  The comparison `left[i] < right[j]`
is abstracted as a boolean relation `lt`, instantiated with the strict
order of a `LinearOrder` for the claims that need comparable elements.
-/

namespace Linearithmic

open List

variable {α : Type*}

/-- Embedding of `merge(left, right)` from `src/main.py` (lines 38–58):
while both lists are nonempty, compare the heads with `lt`; on
`lt left0 right0 = true` take the left head, otherwise (including ties)
take the right head; once one list is exhausted, append the rest of the
other. -/
def merge (lt : α → α → Bool) : List α → List α → List α
  | [], right => right
  | left, [] => left
  | a :: l, b :: r =>
    if lt a b then a :: merge lt l (b :: r)
    else b :: merge lt (a :: l) r
termination_by l r => l.length + r.length

/-- Embedding of `merge_sort(arr)` from `src/main.py` (lines 20–35):
lists of length ≤ 1 are returned unchanged; otherwise the list is split
at `len(arr) // 2` and the recursively sorted halves are merged. -/
def merge_sort (lt : α → α → Bool) (arr : List α) : List α :=
  if arr.length ≤ 1 then arr
  else
    merge lt (merge_sort lt (arr.take (arr.length / 2)))
      (merge_sort lt (arr.drop (arr.length / 2)))
termination_by arr.length
decreasing_by
  · simp only [List.length_take]
    omega
  · simp only [List.length_drop]
    omega

/-- The comparison `merge_sort` is used with in `main()`:
Python's `<` on comparable values. -/
def pyLt [LinearOrder α] (a b : α) : Bool := decide (a < b)

/-- Lemma: `merge` returns a permutation of the concatenation of its inputs,
with no sortedness assumption. -/
theorem merge_perm (lt : α → α → Bool) :
    ∀ l r : List α, merge lt l r ~ l ++ r
  | [], r => by simp [merge]
  | a :: l, [] => by simp [merge]
  | a :: l, b :: r => by
    rw [merge]
    cases h : lt a b
    · simp only [Bool.false_eq_true, if_false, List.cons_append]
      exact ((merge_perm lt (a :: l) r).cons b).trans List.perm_middle.symm
    · simpa using (merge_perm lt l (b :: r)).cons a
termination_by l r => l.length + r.length

/-- The length of `merge` is the sum of the input lengths. -/
theorem merge_length (lt : α → α → Bool) (l r : List α) :
    (merge lt l r).length = l.length + r.length := by
  simpa using (merge_perm lt l r).length_eq

/-- Membership in `merge` is membership in one of the inputs. -/
theorem mem_merge (lt : α → α → Bool) {l r : List α} {x : α} :
    x ∈ merge lt l r ↔ x ∈ l ∨ x ∈ r := by
  rw [(merge_perm lt l r).mem_iff, List.mem_append]

/-- Merging two sorted lists with the strict comparison yields a sorted
list. -/
theorem merge_sorted [LinearOrder α] :
    ∀ {l r : List α}, l.Sorted (· ≤ ·) → r.Sorted (· ≤ ·) →
      (merge (pyLt (α := α)) l r).Sorted (· ≤ ·)
  | [], r, _, hr => by simpa [merge] using hr
  | a :: l, [], hl, _ => by simpa [merge] using hl
  | a :: l, b :: r, hl, hr => by
    rw [merge]
    rw [List.sorted_cons] at hl hr
    cases h : pyLt a b
    · have hba : b ≤ a := le_of_not_lt (by simpa [pyLt] using h)
      simp only [Bool.false_eq_true, if_false, List.sorted_cons]
      refine ⟨fun x hx => ?_, merge_sorted (List.sorted_cons.mpr hl) hr.2⟩
      rcases (mem_merge _).mp hx with hx | hx
      · rcases List.mem_cons.mp hx with rfl | hx
        · exact hba
        · exact hba.trans (hl.1 x hx)
      · exact hr.1 x hx
    · have hab : a ≤ b := le_of_lt (by simpa [pyLt] using h)
      simp only [if_true, List.sorted_cons]
      refine ⟨fun x hx => ?_, merge_sorted hl.2 (List.sorted_cons.mpr hr)⟩
      rcases (mem_merge _).mp hx with hx | hx
      · exact hl.1 x hx
      · rcases List.mem_cons.mp hx with rfl | hx
        · exact hab
        · exact hab.trans (hr.1 x hx)
termination_by l r => l.length + r.length

/-- Lemma: `merge_sort` returns a permutation of its input. -/
theorem merge_sort_perm (lt : α → α → Bool) (arr : List α) :
    merge_sort lt arr ~ arr := by
  rw [merge_sort]
  by_cases h : arr.length ≤ 1
  · simp [h]
  · simp only [h, if_false]
    have htake : (arr.take (arr.length / 2)).length < arr.length := by
      simp only [List.length_take]; omega
    have hdrop : (arr.drop (arr.length / 2)).length < arr.length := by
      simp only [List.length_drop]; omega
    calc merge lt (merge_sort lt (arr.take (arr.length / 2)))
          (merge_sort lt (arr.drop (arr.length / 2)))
        ~ merge_sort lt (arr.take (arr.length / 2)) ++
            merge_sort lt (arr.drop (arr.length / 2)) := merge_perm _ _ _
      _ ~ arr.take (arr.length / 2) ++ arr.drop (arr.length / 2) :=
          (merge_sort_perm lt _).append (merge_sort_perm lt _)
      _ = arr := List.take_append_drop _ _
termination_by arr.length

/-- Lemma: `merge_sort` with the strict comparison produces a sorted list. -/
theorem merge_sort_sorted [LinearOrder α] (arr : List α) :
    (merge_sort (pyLt (α := α)) arr).Sorted (· ≤ ·) := by
  rw [merge_sort]
  by_cases h : arr.length ≤ 1
  · simp only [h, if_true]
    match arr with
    | [] => simp
    | [x] => simp
    | a :: b :: t => simp at h
  · simp only [h, if_false]
    have htake : (arr.take (arr.length / 2)).length < arr.length := by
      simp only [List.length_take]; omega
    have hdrop : (arr.drop (arr.length / 2)).length < arr.length := by
      simp only [List.length_drop]; omega
    exact merge_sorted (merge_sort_sorted _) (merge_sort_sorted _)
termination_by arr.length

/-- Key-value records (value, original position), compared by value only,
as Python compares such records through a key; used to observe stability. -/
def valueLt (a b : ℕ × ℕ) : Bool := decide (a.1 < b.1)

/-- C1 counterexample: the claim says merge takes the left element first on
a tie and that `merge_sort` is stable.  On the input
`[(1, 0), (1, 1)]` — two records with equal value 1, tagged with their
input positions 0 and 1 — `merge` on the two singleton halves takes the
right element first (the strict `<` test fails on the tie), so
`merge_sort` reverses the relative order of the equal-valued records:
the output is `[(1, 1), (1, 0)]`, not the stable `[(1, 0), (1, 1)]`. -/
theorem merge_sort_not_stable :
    merge valueLt [(1, 0)] [(1, 1)] = [(1, 1), (1, 0)] ∧
    merge_sort valueLt [(1, 0), (1, 1)] = [(1, 1), (1, 0)] ∧
    merge_sort valueLt [(1, 0), (1, 1)] ≠ [(1, 0), (1, 1)] := by
  refine ⟨?_, ?_, ?_⟩ <;> simp [merge_sort, merge, valueLt]

/-- C1 (amended): on a tie (equal values), `merge` appends the RIGHT
element first and advances the right cursor, because the strict
less-than test `left[i] < right[j]` is false on equal values and control
falls to the `else` branch; consequently `merge_sort` is not stable —
equal-valued elements of the right half come before those of the left
half. -/
theorem merge_tie_takes_right (p q : ℕ × ℕ) (l r : List (ℕ × ℕ))
    (h : p.1 = q.1) :
    merge valueLt (p :: l) (q :: r) = q :: merge valueLt (p :: l) r := by
  rw [merge]
  simp [valueLt, h]

/-- Witness for `merge_tie_takes_right` at `p = (5, 0)`, `q = (5, 1)`,
`l = [(7, 0)]`, `r = []`. -/
theorem merge_tie_takes_right_witness :
    (5, 0).1 = ((5, 1) : ℕ × ℕ).1 ∧
    merge valueLt [(5, 0), (7, 0)] [(5, 1)] =
      (5, 1) :: merge valueLt [(5, 0), (7, 0)] [] :=
  ⟨by decide, merge_tie_takes_right (5, 0) (5, 1) [(7, 0)] [] (by decide)⟩

/-- C2: for every finite sequence `S` of mutually comparable elements
(a linear order), `merge_sort` with Python's `<` returns a non-decreasing
list: every adjacent pair satisfies `earlier ≤ later` (`List.Chain'`),
equivalently the list is `Sorted (· ≤ ·)`. -/
theorem merge_sort_nondecreasing [LinearOrder α] (S : List α) :
    (merge_sort (pyLt (α := α)) S).Sorted (· ≤ ·) ∧
    List.Chain' (· ≤ ·) (merge_sort (pyLt (α := α)) S) :=
  ⟨merge_sort_sorted S, List.chain'_iff_pairwise.mpr (merge_sort_sorted S)⟩

/-- C3: `merge_sort` returns a permutation of its input — the same
multiset of elements — and in particular preserves length. -/
theorem merge_sort_perm_and_length [LinearOrder α] (S : List α) :
    merge_sort (pyLt (α := α)) S ~ S ∧
    (↑(merge_sort (pyLt (α := α)) S) : Multiset α) = (↑S : Multiset α) ∧
    (merge_sort (pyLt (α := α)) S).length = S.length :=
  ⟨merge_sort_perm _ S, Quot.sound (merge_sort_perm _ S),
    (merge_sort_perm _ S).length_eq⟩

/-- C4: for sorted inputs `A` and `B`, `merge` returns a sorted list whose
length is `A.length + B.length` and which is a permutation of `A ++ B`. -/
theorem merge_correct [LinearOrder α] (A B : List α)
    (hA : A.Sorted (· ≤ ·)) (hB : B.Sorted (· ≤ ·)) :
    (merge (pyLt (α := α)) A B).Sorted (· ≤ ·) ∧
    (merge (pyLt (α := α)) A B).length = A.length + B.length ∧
    merge (pyLt (α := α)) A B ~ A ++ B :=
  ⟨merge_sorted hA hB, merge_length _ A B, merge_perm _ A B⟩

/-- Witness for `merge_correct` at `A = [1, 3]`, `B = [2, 3]` over `ℤ`. -/
theorem merge_correct_witness :
    ([1, 3] : List ℤ).Sorted (· ≤ ·) ∧ ([2, 3] : List ℤ).Sorted (· ≤ ·) ∧
    ((merge (pyLt (α := ℤ)) [1, 3] [2, 3]).Sorted (· ≤ ·) ∧
     (merge (pyLt (α := ℤ)) [1, 3] [2, 3]).length =
       ([1, 3] : List ℤ).length + ([2, 3] : List ℤ).length ∧
     merge (pyLt (α := ℤ)) [1, 3] [2, 3] ~ ([1, 3] : List ℤ) ++ [2, 3]) :=
  ⟨by decide, by decide,
    merge_correct [1, 3] [2, 3] (by decide) (by decide)⟩

/-- C5: `merge_sort` is idempotent: sorting a second time changes
nothing.  The output of the first sort is sorted, the second sort
returns a sorted permutation of it, and two sorted lists that are
permutations of one another are equal. -/
theorem merge_sort_idempotent [LinearOrder α] (S : List α) :
    merge_sort (pyLt (α := α)) (merge_sort (pyLt (α := α)) S) =
      merge_sort (pyLt (α := α)) S :=
  List.eq_of_perm_of_sorted (merge_sort_perm _ _)
    (merge_sort_sorted _) (merge_sort_sorted _)

/-- C6: the base cases return the input unchanged: `merge_sort` of the
empty list is the empty list and `merge_sort` of any singleton is that
singleton, for any comparison. -/
theorem merge_sort_base_cases (lt : α → α → Bool) :
    merge_sort lt ([] : List α) = [] ∧ ∀ x : α, merge_sort lt [x] = [x] :=
  ⟨by rw [merge_sort]; rfl, fun x => by rw [merge_sort]; rfl⟩

/-- C8: the recursion of `merge_sort` is well-founded: whenever the
recursive case is taken (length ≥ 2), both halves passed to the
recursive calls are strictly shorter than the input, and `merge_sort`
satisfies its recursive unfolding equation (its totality is what makes
the equation a theorem). -/
theorem merge_sort_recursion_terminates (lt : α → α → Bool)
    (arr : List α) (h : 2 ≤ arr.length) :
    (arr.take (arr.length / 2)).length < arr.length ∧
    (arr.drop (arr.length / 2)).length < arr.length ∧
    merge_sort lt arr =
      merge lt (merge_sort lt (arr.take (arr.length / 2)))
        (merge_sort lt (arr.drop (arr.length / 2))) := by
  refine ⟨?_, ?_, ?_⟩
  · simp only [List.length_take]; omega
  · simp only [List.length_drop]; omega
  · rw [merge_sort]
    simp only [if_neg (by omega : ¬ arr.length ≤ 1)]

/-- Witness for `merge_sort_recursion_terminates` at `arr = [3, 1, 2]`
over `ℤ`. -/
theorem merge_sort_recursion_terminates_witness :
    2 ≤ ([3, 1, 2] : List ℤ).length ∧
    ((([3, 1, 2] : List ℤ).take (([3, 1, 2] : List ℤ).length / 2)).length <
        ([3, 1, 2] : List ℤ).length ∧
     ((([3, 1, 2] : List ℤ).drop (([3, 1, 2] : List ℤ).length / 2)).length <
        ([3, 1, 2] : List ℤ).length) ∧
     merge_sort (pyLt (α := ℤ)) [3, 1, 2] =
       merge (pyLt (α := ℤ))
         (merge_sort (pyLt (α := ℤ))
           (([3, 1, 2] : List ℤ).take (([3, 1, 2] : List ℤ).length / 2)))
         (merge_sort (pyLt (α := ℤ))
           (([3, 1, 2] : List ℤ).drop (([3, 1, 2] : List ℤ).length / 2)))) :=
  ⟨by decide, merge_sort_recursion_terminates (pyLt (α := ℤ)) [3, 1, 2]
    (by decide)⟩

/-- C9: the empty list is an identity for `merge` on both sides, for any
comparison and any (not necessarily sorted) other argument: the main
loop body never runs and the `extend` steps copy the other list. -/
theorem merge_nil_identity (lt : α → α → Bool) :
    (∀ B : List α, merge lt [] B = B) ∧ (∀ A : List α, merge lt A [] = A) := by
  refine ⟨fun B => by rw [merge], fun A => ?_⟩
  match A with
  | [] => rw [merge]
  | a :: l => simp [merge]

/-- The input sizes enumerated by `simulate_growth` in `src/main.py`
(line 70). -/
def sizes : List ℕ := [10, 100, 1000, 10000]

/-- The `Linear (n)` column of the growth table: `linear = n`
(`src/main.py` line 73). -/
def linear (n : ℕ) : ℕ := n

/-- The `Linearithmic (n log n)` column of the growth table:
`linearithmic = n * math.log2(n)` (`src/main.py` line 75), with the
float logarithm modelled as the real base-2 logarithm. -/
noncomputable def linearithmic (n : ℕ) : ℝ := n * Real.logb 2 n

/-- The `Quadratic (n²)` column of the growth table: `quadratic = n**2`
(`src/main.py` line 76), exact integer arithmetic in Python. -/
def quadratic (n : ℕ) : ℕ := n ^ 2

/-- Rational bounds on `log₂ 10` tight enough to pin the printed value of
the `n = 10000` table row: `13301/4004 < log₂ 10 < 28738/8651`, from
`2 ^ 13301 < 10 ^ 4004` and `10 ^ 8651 < 2 ^ 28738`. -/
theorem logb_two_ten_bounds :
    (13301 : ℝ) / 4004 < Real.logb 2 10 ∧
    Real.logb 2 10 < (28738 : ℝ) / 8651 := by
  constructor
  · have h : (2 ^ 13301 : ℕ) < 10 ^ 4004 := by norm_num
    have hpow : ((2 ^ 13301 : ℕ) : ℝ) < ((10 ^ 4004 : ℕ) : ℝ) :=
      Nat.cast_lt.mpr h
    rw [Nat.cast_pow, Nat.cast_pow] at hpow
    simp only [Nat.cast_ofNat] at hpow
    have h2 := Real.logb_lt_logb (b := 2) one_lt_two
      (pow_pos two_pos 13301) hpow
    rw [Real.logb_pow, Real.logb_pow, Real.logb_self_eq_one one_lt_two] at h2
    norm_num at h2
    rw [div_lt_iff₀ (by norm_num : (0:ℝ) < 4004)]
    linarith
  · have h : (10 ^ 8651 : ℕ) < 2 ^ 28738 := by norm_num
    have hpow : ((10 ^ 8651 : ℕ) : ℝ) < ((2 ^ 28738 : ℕ) : ℝ) :=
      Nat.cast_lt.mpr h
    rw [Nat.cast_pow, Nat.cast_pow] at hpow
    simp only [Nat.cast_ofNat] at hpow
    have h2 := Real.logb_lt_logb (b := 2) one_lt_two (by positivity) hpow
    rw [Real.logb_pow, Real.logb_pow, Real.logb_self_eq_one one_lt_two] at h2
    norm_num at h2
    rw [lt_div_iff₀ (by norm_num : (0:ℝ) < 8651)]
    linarith

/-- C7: in the table row for `n = 10000` (one of the enumerated sizes),
the linearithmic value `10000 · log₂ 10000` lies within `0.005` of
`132877.12` — so it prints as `132877.12` when formatted to two decimal
places — and the quadratic value is exactly `100000000`. -/
theorem growth_table_row_10000 :
    10000 ∈ sizes ∧
    |linearithmic 10000 - 132877.12| < 0.005 ∧
    quadratic 10000 = 100000000 := by
  refine ⟨by decide, ?_, by norm_num [quadratic]⟩
  obtain ⟨hlo, hhi⟩ := logb_two_ten_bounds
  have h4 : Real.logb 2 ((10000 : ℕ) : ℝ) = 4 * Real.logb 2 10 := by
    have h10 : ((10000 : ℕ) : ℝ) = (10 : ℝ) ^ (4 : ℕ) := by norm_num
    rw [h10, Real.logb_pow]
    norm_num
  have hval : linearithmic 10000 = 40000 * Real.logb 2 10 := by
    rw [linearithmic, h4]
    norm_num
    ring
  rw [hval, abs_lt]
  constructor <;> nlinarith [hlo, hhi]

/-- C10: with no sortedness assumption at all, `merge` still returns a
permutation of the concatenation of its inputs, of length
`left.length + right.length`: elements are never lost or duplicated. -/
theorem merge_multiset_preserving (lt : α → α → Bool) (l r : List α) :
    merge lt l r ~ l ++ r ∧
    (↑(merge lt l r) : Multiset α) = (↑(l ++ r) : Multiset α) ∧
    (merge lt l r).length = l.length + r.length :=
  ⟨merge_perm lt l r, Quot.sound (merge_perm lt l r), merge_length lt l r⟩

end Linearithmic
